import Mathlib

/-!
Verification of the docstring→Markdown converter (`doc2md.py`).

Python strings are modelled as `List Char` (`Str`).  Each Python function of
the core transform is translated to a Lean definition of the same name:
`doctrim`, `unindent`, `code_block`, `doctest2md`, `doc_code_block`,
`find_sections`, `make_toc`, `doc2md`.  The CLI glue (module loading,
argument parsing) is out of scope, as in the design document.
-/

/-- Python strings are sequences of characters. -/
abbrev Str := List Char

/-- The characters for which Python's `str.isspace()` is true; this is the
character class stripped by `str.strip()` / `lstrip()` / `rstrip()` with no
arguments. -/
def isPySpace (c : Char) : Bool :=
  let n := c.toNat
  (9 ≤ n && n ≤ 13) || (28 ≤ n && n ≤ 31) || n == 32 || n == 0x85 || n == 0xa0 ||
  n == 0x1680 || (0x2000 ≤ n && n ≤ 0x200a) || n == 0x2028 || n == 0x2029 ||
  n == 0x202f || n == 0x205f || n == 0x3000

/-- Line-boundary characters recognized by Python's `str.splitlines()`. -/
def isLineBoundary (c : Char) : Bool :=
  c == '\n' || c == '\r' || c == '\x0b' || c == '\x0c' ||
  c == '\x1c' || c == '\x1d' || c == '\x1e' || c == '\x85' ||
  c.toNat == 0x2028 || c.toNat == 0x2029

/-- Python `str.lstrip()`. -/
def lstrip (s : Str) : Str := s.dropWhile isPySpace

/-- Python `str.rstrip()`. -/
def rstrip (s : Str) : Str := (s.reverse.dropWhile isPySpace).reverse

/-- Python `str.strip()` (both ends). -/
def pyStrip (s : Str) : Str := rstrip (lstrip s)

/-- Worker for `str.expandtabs()` with the default tab size 8: `col` tracks the
current column, a tab is replaced by spaces up to the next multiple of 8, and
the column resets to 0 after `\n` or `\r` (as in CPython). -/
def pyExpandtabsGo : Nat → Str → Str
  | _, [] => []
  | col, c :: rest =>
    if c = '\t' then
      List.replicate (8 - col % 8) ' ' ++ pyExpandtabsGo (col + (8 - col % 8)) rest
    else if c = '\n' ∨ c = '\r' then
      c :: pyExpandtabsGo 0 rest
    else
      c :: pyExpandtabsGo (col + 1) rest

/-- Python `str.expandtabs()` (default tab size 8). -/
def pyExpandtabs (s : Str) : Str := pyExpandtabsGo 0 s

/-- Python `str.splitlines()`: splits at every line-boundary character, with
`\r\n` counting as a single boundary; a trailing boundary does not produce a
trailing empty line, and the empty string yields no lines. -/
def pySplitlines : Str → List Str
  | [] => []
  | [c] => if isLineBoundary c then [[]] else [[c]]
  | c :: c2 :: rest =>
    if c = '\r' ∧ c2 = '\n' then
      [] :: pySplitlines rest
    else if isLineBoundary c then
      [] :: pySplitlines (c2 :: rest)
    else
      match pySplitlines (c2 :: rest) with
      | [] => [[c]]
      | l :: ls => (c :: l) :: ls

/-- Python `str.split('\n')`: always returns at least one (possibly empty)
piece; a trailing `\n` produces a trailing empty piece. -/
def pySplitNl : Str → List Str
  | [] => [[]]
  | c :: rest =>
    if c = '\n' then
      [] :: pySplitNl rest
    else
      match pySplitNl rest with
      | [] => [[c]]
      | l :: ls => (c :: l) :: ls

/-- Python `'\n'.join(lines)`. -/
def joinLines (lines : List Str) : Str := List.intercalate ['\n'] lines

/-- The indentation of a line as the Python code computes it:
`len(line) - len(line.lstrip())`. -/
def indentOf (line : Str) : Nat := line.length - (lstrip line).length

/-- The `indent` accumulation loop shared by `doctrim` and `unindent`:
`acc = none` models the initial `sys.maxsize` sentinel (no indented non-blank
line seen yet); each non-blank line lowers the running minimum. -/
def minIndentGo : Option Nat → List Str → Option Nat
  | acc, [] => acc
  | acc, line :: ls =>
    if (lstrip line).isEmpty then
      minIndentGo acc ls
    else
      match acc with
      | none => minIndentGo (some (indentOf line)) ls
      | some n => minIndentGo (some (min n (indentOf line))) ls

/-- `while trimmed and not trimmed[-1]: trimmed.pop()` — drop empty lines from
the end of the list. -/
def dropTrailingEmpty (ls : List Str) : List Str :=
  (ls.reverse.dropWhile List.isEmpty).reverse

/-- `while trimmed and not trimmed[0]: trimmed.pop(0)` — drop empty lines from
the front of the list. -/
def dropLeadingEmpty (ls : List Str) : List Str :=
  ls.dropWhile List.isEmpty

/-- Python `min` over a non-empty collection, given as first element plus
rest. -/
def pyMin (x : Nat) (xs : List Nat) : Nat := xs.foldl min x

/-- `doctrim(docstring)` from `doc2md.py` (PEP 257 docstring trimming):
`None` or the empty string yield `''`; otherwise tabs are expanded, the text is
split into lines, the minimum indentation over the non-blank lines after the
first is removed from every line but the first (which is stripped on both
ends), lines are right-stripped, and empty lines are removed from the end and
then from the start.  The `[] => []` match arm is unreachable: `pySplitlines`
of a non-empty string is non-empty. -/
def doctrim : Option Str → Str
  | none => []
  | some d =>
    if d = [] then [] else
    match pySplitlines (pyExpandtabs d) with
    | [] => []
    | l0 :: rest =>
      let indent := minIndentGo none rest
      let trimmed := pyStrip l0 ::
        (match indent with
         | none => []
         | some n => rest.map (fun line => rstrip (line.drop n)))
      joinLines (dropLeadingEmpty (dropTrailingEmpty trimmed))

/-- `unindent(lines)` from `doc2md.py`: remove the common indentation (minimum
over all non-blank lines, first line included) from every line; if no line is
non-blank the result is empty. -/
def unindent (lines : List Str) : List Str :=
  match minIndentGo none lines with
  | none => []
  | some n => lines.map (fun line => line.drop n)

/-- `code_block(lines, language)` from `doc2md.py`: wrap in a fenced block. -/
def code_block (lines : List Str) (language : Str) : List Str :=
  ("```".data ++ language) :: lines ++ ["```".data]

/-- The `is_only_code` loop of `doctest2md`: scan the lines, and stop with
`False` at the first line that is neither a `>>> `/`... ` prompt line nor
exactly `>>>` or `...`. -/
def doctest_is_only_code : List Str → Bool
  | [] => true
  | line :: ls =>
    if ¬(">>> ".data.isPrefixOf line) ∧ ¬("... ".data.isPrefixOf line) ∧
        line ≠ ">>>".data ∧ line ≠ "...".data then
      false
    else
      doctest_is_only_code ls

/-- `doctest2md(lines)` from `doc2md.py`: unindent the block; if every line is
a prompt line, drop the first four characters of every line. -/
def doctest2md (lines : List Str) : List Str :=
  let lines := unindent lines
  if doctest_is_only_code lines then
    lines.map (fun line => line.drop 4)
  else
    lines

/-- `doc_code_block(lines, language)` from `doc2md.py`. -/
def doc_code_block (lines : List Str) (language : Str) : List Str :=
  code_block (if language = "python".data then doctest2md lines else lines) language

/-- The regex `^#+ ` of `find_sections`: the line must start with one or more
`#` characters immediately followed by a space.  Because every character of
the leading `#`-run differs from `' '`, the regex matches exactly when the
character right after the maximal leading `#`-run is a space. -/
def reg_section (line : Str) : Bool :=
  let hashes := line.takeWhile (fun c => c = '#')
  !hashes.isEmpty && ((line.drop hashes.length).head? == some ' ')

/-- Python `line.partition(' ')`, restricted to the (before, after) pair:
split at the first space; if there is no space the whole line is `before` and
`after` is empty. -/
def partitionChar (c : Char) : Str → Str × Str
  | [] => ([], [])
  | x :: xs =>
    if x = c then
      ([], xs)
    else
      let p := partitionChar c xs
      (x :: p.1, p.2)

/-- `find_sections(lines)` from `doc2md.py`: every line matching `^#+ `
contributes the pair (number of characters before the first space, text after
the first space). -/
def find_sections (lines : List Str) : List (Nat × Str) :=
  lines.filterMap (fun line =>
    if reg_section line then
      let part := partitionChar ' ' line
      some (part.1.length, part.2)
    else
      none)

/-- `make_toc(sections)` from `doc2md.py`: for each `(ind, sec)` emit
`"    "*(ind-outer) + "- [sec](#ref)"`, where `outer` is the minimum depth and
`ref` is `sec` lowercased, with spaces replaced by hyphens and `?` removed. -/
def make_toc (sections : List (Nat × Str)) : List Str :=
  match sections with
  | [] => []
  | s :: rest =>
    let outer := pyMin s.1 (rest.map Prod.fst)
    (s :: rest).map (fun p =>
      let ref1 := p.2.map Char.toLower
      let ref2 := ref1.map (fun c => if c = ' ' then '-' else c)
      let ref3 := ref2.filter (fun c => !(c == '?'))
      List.flatten (List.replicate (p.1 - outer) "    ".data) ++
        "- [".data ++ p.2 ++ "](#".data ++ ref3 ++ ")".data)

/-- The state of the line-walking loop in `doc2md`: the accumulated output
(`md`), the in-code-block flag, and the current block's language and collected
lines.  `language` and `code` start empty, modelling that Python leaves them
unassigned until the first block starts. -/
structure LoopState where
  md : List Str
  is_code : Bool
  language : Str
  code : List Str
  deriving Repr, DecidableEq

/-- One iteration of the `for line in lines` loop of `doc2md`. -/
def doc2mdStep (s : LoopState) (line : Str) : LoopState :=
  let trimmed := lstrip line
  if s.is_code then
    if line ≠ [] then
      { s with code := s.code ++ [line] }
    else
      { s with is_code := false,
               md := s.md ++ doc_code_block s.code s.language ++ [line] }
  else if ">>> ".data.isPrefixOf trimmed then
    { s with is_code := true, language := "python".data, code := [line] }
  else if "$ ".data.isPrefixOf trimmed then
    { s with is_code := true, language := "bash".data, code := [line] }
  else
    { s with md := s.md ++ [line] }

/-- The `if is_code: md += doc_code_block(...)` epilogue of `doc2md`. -/
def doc2mdFinish (s : LoopState) : List Str :=
  if s.is_code then s.md ++ doc_code_block s.code s.language else s.md

/-- `doc2md(docstr, title)` from `doc2md.py`, up to the final `'\n'.join`:
the list `md` of output lines.  The `[] => []` arm is unreachable because
`pySplitNl` always returns at least one line. -/
def doc2mdLines (docstr : Option Str) (title : Str) : List Str :=
  let text := doctrim docstr
  let lines := pySplitNl text
  let sections := find_sections lines
  let level : Nat :=
    match sections with
    | [] => 2
    | s :: rest => pyMin s.1 (rest.map Prod.fst)
  match lines with
  | [] => []
  | first :: rest =>
    let md := [List.replicate (max (level - 1) 1) '#' ++ ' ' :: title,
               [], first, []] ++ make_toc sections
    doc2mdFinish (rest.foldl doc2mdStep ⟨md, false, [], []⟩)

/-- `doc2md(docstr, title)` from `doc2md.py`. -/
def doc2md (docstr : Option Str) (title : Str) : Str :=
  joinLines (doc2mdLines docstr title)

/-- Spec-side predicate (C4's wording): a line "either starts with `>>> `,
starts with `... `, or is exactly `>>>` or `...`". -/
def promptLineSpec (line : Str) : Bool :=
  ">>> ".data.isPrefixOf line || "... ".data.isPrefixOf line ||
  line == ">>>".data || line == "...".data

/-- Spec-side anchor (C8's wording): "the title lowercased with spaces
replaced by hyphens and `?` characters removed". -/
def anchorSpec (title : Str) : Str :=
  ((title.map Char.toLower).map (fun c => if c = ' ' then '-' else c)).filter
    (fun c => c ≠ '?')

/-! ## C9: overhead of `code_block` -/

/-- C9 counterexample: wrapping one collected line produces a 3-line block,
not the 4 lines that "exactly three more lines than the collected block"
would require — the fences add two lines of overhead, not three. -/
theorem code_block_three_overhead_counterexample :
    (code_block ["1 + 1".data] "python".data).length = 3 ∧
    ¬ ((code_block ["1 + 1".data] "python".data).length =
        (["1 + 1".data] : List Str).length + 3) := by
  decide

/-- C9 (amended): `code_block` wraps the collected lines between an opening
fence tagged with the language and a closing fence, adding exactly two lines
of overhead: the formatted block has exactly two more lines than the
collected block. -/
theorem code_block_two_overhead (lines : List Str) (language : Str) :
    code_block lines language = ("```".data ++ language) :: lines ++ ["```".data] ∧
    (code_block lines language).length = lines.length + 2 := by
  refine ⟨rfl, ?_⟩
  simp [code_block]

/-! ## C2: bash blocks are fenced verbatim -/

/-- C2 counterexample: a bash block whose single line carries two columns of
indentation is fenced verbatim, not group-unindented first. -/
theorem bash_block_not_unindented :
    doc_code_block ["  $ ls".data] "bash".data ≠
      code_block (unindent ["  $ ls".data]) "bash".data := by
  decide

/-- C2 (amended): bash-tagged blocks are fenced exactly as collected — no
unindent pre-pass is applied and no prompt marker is ever stripped. -/
theorem bash_block_verbatim (lines : List Str) :
    doc_code_block lines "bash".data = "```bash".data :: lines ++ ["```".data] := by
  unfold doc_code_block code_block
  rw [if_neg (by decide)]
  rw [show ("```".data ++ "bash".data) = "```bash".data from by decide]

/-! ## C1: the worked `convert` example -/

/-- C1 counterexample: on docstring `"Title line\n\n>>> 1 + 1\n2\n"` with
title `"demo"`, the line `"2"` is consumed into the code block (it is
non-empty), so the emitted python fence does NOT have content exactly
`["1 + 1"]`: no fence with that sole content occurs anywhere in the output,
and the actual output keeps `">>> 1 + 1"` and `"2"` inside the fence. -/
theorem convert_demo_counterexample :
    doc2mdLines (some "Title line\n\n>>> 1 + 1\n2\n".data) "demo".data =
      ["# demo".data, [], "Title line".data, [], [],
       "```python".data, ">>> 1 + 1".data, "2".data, "```".data] ∧
    ¬ (["```python".data, "1 + 1".data, "```".data] <:+:
        doc2mdLines (some "Title line\n\n>>> 1 + 1\n2\n".data) "demo".data) := by
  decide

/-- C1 (amended): for docstring `"Title line\n\n>>> 1 + 1\n2\n"` and title
`"demo"`, the first heading is `"# demo"`, but the line `"2"` is consumed
into the block (only a zero-length line or end-of-input terminates it), which
therefore is not a pure transcript: the fenced python block has content
`[">>> 1 + 1", "2"]` with the prompt retained, and no passthrough `"2"` is
emitted. -/
theorem convert_demo_actual :
    doc2md (some "Title line\n\n>>> 1 + 1\n2\n".data) "demo".data =
      "# demo\n\nTitle line\n\n\n```python\n>>> 1 + 1\n2\n```".data ∧
    (doc2mdLines (some "Title line\n\n>>> 1 + 1\n2\n".data) "demo".data).head? =
      some "# demo".data ∧
    ["```python".data, ">>> 1 + 1".data, "2".data, "```".data] <:+:
      doc2mdLines (some "Title line\n\n>>> 1 + 1\n2\n".data) "demo".data := by
  decide

/-! ## C10: headings are scanned before code-block classification -/

/-- C10: section scanning and TOC construction happen on the normalized lines
before any code-block classification: the line `"# comment"`, which ends up
inside the bash code block (it directly follows the `"$ ls"` line with no
blank line between), still contributes a heading — it yields the TOC entry
`- [comment](#comment)` and its depth 1 drives the top-heading level, while
the very same line also sits between the fences of the bash block. -/
theorem sections_scanned_before_code_blocks :
    doc2mdLines (some "T\n\n$ ls\n# comment\n\nx".data) "doc".data =
      ["# doc".data, [], "T".data, [], "- [comment](#comment)".data, [],
       "```bash".data, "$ ls".data, "# comment".data, "```".data, [], "x".data] ∧
    (doc2mdLines (some "T\n\n$ ls\n# comment\n\nx".data) "doc".data).head? =
      some "# doc".data ∧
    "- [comment](#comment)".data ∈
      doc2mdLines (some "T\n\n$ ls\n# comment\n\nx".data) "doc".data ∧
    ["```bash".data, "$ ls".data, "# comment".data, "```".data] <:+:
      doc2mdLines (some "T\n\n$ ls\n# comment\n\nx".data) "doc".data := by
  decide

/-! ## C3: code-block continuation and termination in the `doc2md` loop -/

/-- C3: once a block has started (`is_code = true`), any non-empty line — even
a whitespace-only one — is consumed into the block; the first zero-length line
ends the block and is emitted verbatim after the closing fence, not included
in the collected lines; and if the input ends inside a block, the epilogue
closes the block with no trailing blank line inserted. -/
theorem code_block_continuation (s : LoopState) (line : Str) :
    (s.is_code = true → line ≠ [] →
      doc2mdStep s line = { s with code := s.code ++ [line] }) ∧
    (s.is_code = true → line = [] →
      doc2mdStep s line =
        { s with is_code := false,
                 md := s.md ++ doc_code_block s.code s.language ++ [line] }) ∧
    (s.is_code = true →
      doc2mdFinish s = s.md ++ doc_code_block s.code s.language) := by
  refine ⟨fun h hne => ?_, fun h he => ?_, fun h => ?_⟩
  · simp [doc2mdStep, h, hne]
  · simp [doc2mdStep, h, he]
  · simp [doc2mdFinish, h]

/-- Witness for C3 at a concrete in-block state: the whitespace-only line
`" "` is consumed into the block, the empty line closes the block and is
emitted after the fence, and the epilogue closes the block without a trailing
blank. -/
theorem code_block_continuation_witness :
    doc2mdStep ⟨[], true, "python".data, [">>> x".data]⟩ " ".data =
      ⟨[], true, "python".data, [">>> x".data, " ".data]⟩ ∧
    doc2mdStep ⟨[], true, "python".data, [">>> x".data]⟩ [] =
      ⟨["```python".data, "x".data, "```".data, []], false,
        "python".data, [">>> x".data]⟩ ∧
    doc2mdFinish ⟨[], true, "python".data, [">>> x".data]⟩ =
      ["```python".data, "x".data, "```".data] :=
  ⟨((code_block_continuation ⟨[], true, "python".data, [">>> x".data]⟩
      " ".data).1 rfl (by decide)).trans (by decide),
   ((code_block_continuation ⟨[], true, "python".data, [">>> x".data]⟩
      []).2.1 rfl rfl).trans (by decide),
   ((code_block_continuation ⟨[], true, "python".data, [">>> x".data]⟩
      []).2.2 rfl).trans (by decide)⟩

/-! ## C4: the python-block doctest pre-pass -/

/-- The early-exit `is_only_code` loop computes exactly "every line is a
prompt line". -/
theorem doctest_is_only_code_eq_all (lines : List Str) :
    doctest_is_only_code lines = lines.all promptLineSpec := by
  induction lines with
  | nil => rfl
  | cons l ls ih =>
    simp only [doctest_is_only_code, List.all_cons]
    by_cases h : promptLineSpec l = true
    · rw [if_neg, h, Bool.true_and, ih]
      simp only [promptLineSpec, Bool.or_eq_true, beq_iff_eq] at h
      tauto
    · have h' : promptLineSpec l = false := Bool.eq_false_iff.mpr h
      rw [if_pos, h', Bool.false_and]
      simp only [promptLineSpec, Bool.or_eq_true, beq_iff_eq] at h
      push_neg at h
      tauto

/-- C4: a python-tagged block is first group-unindented; if afterwards every
line starts with `>>> ` or `... ` or is exactly `>>>` or `...`, the first
four characters are stripped from every line before fencing, and otherwise
the (unindented) lines are fenced unchanged, prompts retained. -/
theorem python_block_doctest_prepass (lines : List Str) :
    doc_code_block lines "python".data =
      code_block
        (if (unindent lines).all promptLineSpec then
          (unindent lines).map (fun line => line.drop 4)
        else unindent lines)
        "python".data := by
  simp only [doc_code_block, if_pos, doctest2md, doctest_is_only_code_eq_all]

/-! ## C6: top-heading level and default TOC -/

/-- `str.split('\n')` never yields an empty list of pieces. -/
theorem pySplitNl_ne_nil (s : Str) : pySplitNl s ≠ [] := by
  induction s with
  | nil => simp [pySplitNl]
  | cons c rest ih =>
    simp only [pySplitNl]
    split
    · simp
    · rcases h : pySplitNl rest with _ | ⟨l, ls⟩
      · exact absurd h ih
      · simp [h]

/-- Each loop iteration only appends to the accumulated output `md`. -/
theorem doc2mdStep_md_append (s : LoopState) (line : Str) :
    ∃ t, (doc2mdStep s line).md = s.md ++ t := by
  unfold doc2mdStep
  dsimp only
  split
  · split
    · exact ⟨[], (List.append_nil _).symm⟩
    · exact ⟨doc_code_block s.code s.language ++ [line], by simp⟩
  · split
    · exact ⟨[], (List.append_nil _).symm⟩
    · split
      · exact ⟨[], (List.append_nil _).symm⟩
      · exact ⟨[line], rfl⟩

/-- The whole loop only appends to the accumulated output `md`. -/
theorem foldl_doc2mdStep_md_append (lines : List Str) (s : LoopState) :
    ∃ t, (lines.foldl doc2mdStep s).md = s.md ++ t := by
  induction lines generalizing s with
  | nil => exact ⟨[], (List.append_nil _).symm⟩
  | cons l ls ih =>
    obtain ⟨v, hv⟩ := ih (doc2mdStep s l)
    obtain ⟨u, hu⟩ := doc2mdStep_md_append s l
    exact ⟨u ++ v, by rw [List.foldl_cons, hv, hu, List.append_assoc]⟩

/-- The epilogue only appends to the accumulated output `md`. -/
theorem doc2mdFinish_md_append (s : LoopState) :
    ∃ t, doc2mdFinish s = s.md ++ t := by
  unfold doc2mdFinish
  split
  · exact ⟨_, rfl⟩
  · exact ⟨[], (List.append_nil _).symm⟩

/-- The first element of the accumulated output survives the whole loop and
the epilogue. -/
theorem doc2mdLoop_head (lines : List Str) (a : Str) (m : List Str) (b : Bool)
    (lg : Str) (cd : List Str) :
    (doc2mdFinish (lines.foldl doc2mdStep ⟨a :: m, b, lg, cd⟩)).head? = some a := by
  obtain ⟨t, ht⟩ := foldl_doc2mdStep_md_append lines ⟨a :: m, b, lg, cd⟩
  obtain ⟨u, hu⟩ := doc2mdFinish_md_append (lines.foldl doc2mdStep ⟨a :: m, b, lg, cd⟩)
  rw [hu, ht]
  simp

/-- C6: the heading scan runs over all normalized lines including line 0, and
the emitted top heading line is `"#" * max(level-1, 1)` followed by a single
space and the title, where `level` is the minimum heading depth among all
scanned headings, defaulting to 2 when no heading is present; with no
headings the TOC is the empty sequence. -/
theorem top_heading_level (docstr : Option Str) (title : Str) :
    (doc2mdLines docstr title).head? =
      some (List.replicate
        (max ((((find_sections (pySplitNl (doctrim docstr))).map Prod.fst).min?.getD 2) - 1) 1)
        '#' ++ ' ' :: title) ∧
    make_toc [] = [] := by
  refine ⟨?_, rfl⟩
  unfold doc2mdLines
  dsimp only
  rcases h : pySplitNl (doctrim docstr) with _ | ⟨first, rest⟩
  · exact absurd h (pySplitNl_ne_nil _)
  · have hlevel :
        (match find_sections (first :: rest) with
          | [] => 2
          | s :: r => pyMin s.1 (r.map Prod.fst)) =
        (((find_sections (first :: rest)).map Prod.fst).min?.getD 2) := by
      rcases find_sections (first :: rest) with _ | ⟨s, r⟩
      · rfl
      · rfl
    dsimp only
    rw [hlevel]
    exact doc2mdLoop_head rest _ _ false [] []

/-! ## C7: the heading classifier -/

/-- `takeWhile (= '#')` on a `#`-run followed by a space stops exactly at the
space. -/
theorem takeWhile_hash_run (d : Nat) (t : Str) :
    (List.replicate d '#' ++ ' ' :: t).takeWhile (fun c => c = '#') =
      List.replicate d '#' := by
  induction d with
  | zero => simp [List.takeWhile_cons]
  | succ d ih => simp [List.replicate_succ, List.takeWhile_cons, ih]

/-- `partition(' ')` on a `#`-run followed by a space splits exactly there. -/
theorem partitionChar_hash_run (d : Nat) (t : Str) :
    partitionChar ' ' (List.replicate d '#' ++ ' ' :: t) =
      (List.replicate d '#', t) := by
  induction d with
  | zero => simp [partitionChar]
  | succ d ih => simp [List.replicate_succ, partitionChar, ih]

/-- The regex `^#+ ` matches exactly the lines of shape
`'#' * d ++ " " ++ t` with `d ≥ 1`. -/
theorem reg_section_iff (line : Str) :
    reg_section line = true ↔
      ∃ d t, 1 ≤ d ∧ line = List.replicate d '#' ++ ' ' :: t := by
  constructor
  · intro h
    unfold reg_section at h
    rw [Bool.and_eq_true] at h
    obtain ⟨hne, hsp⟩ := h
    set hs := line.takeWhile (fun c => c = '#') with hhs
    have hrep : hs = List.replicate hs.length '#' := by
      rw [List.eq_replicate_iff]
      refine ⟨rfl, fun b hb => ?_⟩
      have := List.mem_takeWhile_imp (p := fun c => c = '#') (hhs ▸ hb)
      exact of_decide_eq_true this
    have hsplit : hs ++ line.dropWhile (fun c => c = '#') = line :=
      List.takeWhile_append_dropWhile _ _
    have hdrop : line.drop hs.length = line.dropWhile (fun c => c = '#') := by
      conv_lhs => rw [← hsplit]
      exact List.drop_left _ _
    rw [hdrop] at hsp
    rcases hd : line.dropWhile (fun c => c = '#') with _ | ⟨c, t⟩
    · rw [hd] at hsp
      simp at hsp
    · rw [hd] at hsp
      simp only [List.head?_cons, Option.some.injEq, beq_iff_eq] at hsp
      refine ⟨hs.length, t, ?_, ?_⟩
      · rcases hlen : hs.length with _ | n
        · exfalso
          rw [List.length_eq_zero.mp hlen] at hne
          simp at hne
        · exact Nat.succ_le_succ (Nat.zero_le n)
      · rw [← hsplit, hd, hsp, hrep, List.length_replicate]
  · rintro ⟨d, t, hd, rfl⟩
    unfold reg_section
    rw [Bool.and_eq_true]
    constructor
    · rw [takeWhile_hash_run]
      rcases d with _ | d
      · exact absurd hd (by simp)
      · simp [List.replicate_succ]
    · rw [takeWhile_hash_run, List.length_replicate,
        List.drop_left' (List.length_replicate _ _)]
      simp

/-- C7: the scanner classifies a line as a heading iff it starts with one or
more `#` characters immediately followed by a single space; the depth is the
number of `#` characters and the title is everything after that first space,
unmodified.  In particular `"## Foo"` yields `(2, "Foo")` and `"###Foo"` is
not a heading. -/
theorem section_heading_iff (line : Str) :
    (∀ d t, find_sections [line] = [(d, t)] ↔
      (1 ≤ d ∧ line = List.replicate d '#' ++ ' ' :: t)) ∧
    find_sections ["###Foo".data] = [] ∧
    find_sections ["## Foo".data] = [((2 : Nat), "Foo".data)] := by
  refine ⟨fun d t => ?_, by decide, by decide⟩
  constructor
  · intro h
    unfold find_sections at h
    rcases hreg : reg_section line with _ | _
    · rw [List.filterMap_cons, if_neg (by simp [hreg])] at h
      simp at h
    · obtain ⟨d0, t0, hd0, hline⟩ := (reg_section_iff line).mp hreg
      rw [List.filterMap_cons, if_pos hreg] at h
      rw [hline, partitionChar_hash_run] at h
      simp only [List.filterMap_nil, List.length_replicate] at h
      obtain ⟨h1, h2⟩ := Prod.mk.injEq .. ▸ (List.cons_eq_cons.mp h).1
      exact ⟨h1 ▸ hd0, by rw [hline, h1, h2]⟩
  · rintro ⟨hd, rfl⟩
    have hreg : reg_section (List.replicate d '#' ++ ' ' :: t) = true :=
      (reg_section_iff _).mpr ⟨d, t, hd, rfl⟩
    unfold find_sections
    rw [List.filterMap_cons, if_pos hreg, partitionChar_hash_run]
    simp

/-! ## C8: TOC entries -/

/-- `"    " * k` is `4 * k` spaces. -/
theorem flatten_replicate_spaces (k : Nat) :
    List.flatten (List.replicate k "    ".data) = List.replicate (4 * k) ' ' := by
  induction k with
  | zero => rfl
  | succ k ih =>
    rw [List.replicate_succ, List.flatten_cons, ih,
      show 4 * (k + 1) = 4 + 4 * k by ring, List.replicate_add]
    rfl

/-- C8: for a non-empty heading list, `make_toc` emits one entry per heading
in original order, indented by `depth - minimum depth` four-space units, of
the form `- [title](#anchor)` with the anchor being the title lowercased,
spaces replaced by hyphens and `?` removed; title `"How it Works?"` yields
anchor `how-it-works`. -/
theorem make_toc_entries (sections : List (Nat × Str)) (h : sections ≠ []) :
    make_toc sections = sections.map (fun p =>
      List.replicate (4 * (p.1 - ((sections.map Prod.fst).min?.getD 0))) ' ' ++
        "- [".data ++ p.2 ++ "](#".data ++ anchorSpec p.2 ++ ")".data) ∧
    anchorSpec "How it Works?".data = "how-it-works".data := by
  refine ⟨?_, by decide⟩
  rcases sections with _ | ⟨s, rest⟩
  · exact absurd rfl h
  · show make_toc (s :: rest) = (s :: rest).map _
    unfold make_toc
    dsimp only
    apply List.map_congr_left
    intro p _
    rw [flatten_replicate_spaces]
    have hmin : (((s :: rest).map Prod.fst).min?.getD 0) =
        pyMin s.1 (rest.map Prod.fst) := rfl
    rw [hmin]
    have hanchor :
        (((p.2.map Char.toLower).map (fun c => if c = ' ' then '-' else c)).filter
          (fun c => !(c == '?'))) = anchorSpec p.2 := by
      unfold anchorSpec
      apply List.filter_congr
      intro c _
      by_cases hc : c = '?' <;> simp [hc]
    rw [hanchor]

/-- Witness for C8 at the singleton heading list `[(2, "How it Works?")]`. -/
theorem make_toc_entries_witness :
    ([((2 : Nat), "How it Works?".data)] ≠ ([] : List (Nat × Str))) ∧
    (make_toc [((2 : Nat), "How it Works?".data)] =
      [((2 : Nat), "How it Works?".data)].map (fun p =>
        List.replicate
            (4 * (p.1 - (([((2 : Nat), "How it Works?".data)].map Prod.fst).min?.getD 0))) ' ' ++
          "- [".data ++ p.2 ++ "](#".data ++ anchorSpec p.2 ++ ")".data) ∧
      anchorSpec "How it Works?".data = "how-it-works".data) :=
  ⟨by decide, make_toc_entries [((2 : Nat), "How it Works?".data)] (by decide)⟩

/-! ## C5: idempotence of `doctrim` -/

/-- `dropWhile` is idempotent. -/
theorem dropWhile_dropWhile {α : Type} (p : α → Bool) (l : List α) :
    (l.dropWhile p).dropWhile p = l.dropWhile p := by
  induction l with
  | nil => rfl
  | cons a l ih =>
    rw [List.dropWhile_cons]
    split
    · exact ih
    · rw [List.dropWhile_cons, if_neg (by assumption)]

/-- `lstrip` is idempotent. -/
theorem lstrip_idem (s : Str) : lstrip (lstrip s) = lstrip s :=
  dropWhile_dropWhile _ _

/-- `rstrip` is idempotent. -/
theorem rstrip_idem (s : Str) : rstrip (rstrip s) = rstrip s := by
  unfold rstrip
  rw [List.reverse_reverse, dropWhile_dropWhile]

/-- The head of a `dropWhile` result does not satisfy the predicate. -/
theorem head_dropWhile_false {α : Type} (p : α → Bool) (l : List α) (a : α)
    (l' : List α) (h : l.dropWhile p = a :: l') : p a = false := by
  induction l with
  | nil => exact absurd h (by simp)
  | cons b l ih =>
    rw [List.dropWhile_cons] at h
    split at h
    · exact ih h
    · cases h
      exact Bool.eq_false_iff.mpr (by assumption)

/-- `lstrip` keeps a string whose head is not whitespace. -/
theorem lstrip_cons_not_space (c : Char) (s : Str) (h : isPySpace c = false) :
    lstrip (c :: s) = c :: s := by
  unfold lstrip
  rw [List.dropWhile_cons, if_neg (by simp [h])]

/-- `rstrip` keeps a non-whitespace head. -/
theorem rstrip_cons_not_space (c : Char) (s : Str) (h : isPySpace c = false) :
    rstrip (c :: s) = c :: rstrip s := by
  unfold rstrip
  rw [List.reverse_cons, List.dropWhile_append]
  split
  · rename_i hemp
    rw [List.isEmpty_eq_true] at hemp
    rw [List.dropWhile_cons, if_neg (by simp [h]), hemp]
    simp
  · rw [List.reverse_append]
    simp

/-- `strip` is idempotent. -/
theorem pyStrip_idem (s : Str) : pyStrip (pyStrip s) = pyStrip s := by
  unfold pyStrip
  rcases hl : lstrip s with _ | ⟨c, t⟩
  · simp [rstrip, lstrip]
  · have hc : isPySpace c = false := by
      have := head_dropWhile_false isPySpace s c t hl
      exact this
    rw [rstrip_cons_not_space c t hc, lstrip_cons_not_space c _ hc,
      ← rstrip_cons_not_space c t hc, rstrip_idem]

/-- Characters of `lstrip s` come from `s`. -/
theorem mem_of_mem_lstrip {c : Char} {s : Str} (h : c ∈ lstrip s) : c ∈ s :=
  List.Sublist.mem h (List.dropWhile_sublist _)

/-- Characters of `rstrip s` come from `s`. -/
theorem mem_of_mem_rstrip {c : Char} {s : Str} (h : c ∈ rstrip s) : c ∈ s := by
  unfold rstrip at h
  rw [List.mem_reverse] at h
  exact List.mem_reverse.mp (List.Sublist.mem h (List.dropWhile_sublist _))

/-- Characters of `s.drop n` come from `s`. -/
theorem mem_of_mem_drop {c : Char} {n : Nat} {s : Str} (h : c ∈ s.drop n) : c ∈ s :=
  List.Sublist.mem h (List.drop_sublist _ _)

/-- Characters of `pyStrip s` come from `s`. -/
theorem mem_of_mem_pyStrip {c : Char} {s : Str} (h : c ∈ pyStrip s) : c ∈ s :=
  mem_of_mem_lstrip (mem_of_mem_rstrip h)

/-- `expandtabs` produces no tab characters. -/
theorem pyExpandtabsGo_no_tab (s : Str) : ∀ col, '\t' ∉ pyExpandtabsGo col s := by
  induction s with
  | nil => intro col h; simp [pyExpandtabsGo] at h
  | cons c rest ih =>
    intro col h
    unfold pyExpandtabsGo at h
    split at h
    · rw [List.mem_append] at h
      rcases h with h | h
      · rw [List.mem_replicate] at h
        exact absurd h.2 (by decide)
      · exact ih _ h
    · rename_i hnottab
      split at h <;>
        rcases List.mem_cons.mp h with h | h <;>
          first
          | exact hnottab h.symm
          | exact ih _ h

/-- `expandtabs` is the identity on tab-free strings. -/
theorem pyExpandtabsGo_eq_self (s : Str) (h : '\t' ∉ s) :
    ∀ col, pyExpandtabsGo col s = s := by
  induction s with
  | nil => intro col; rfl
  | cons c rest ih =>
    intro col
    have hc : ¬ c = '\t' := fun hc => h (hc ▸ List.mem_cons_self c rest)
    have hrest : '\t' ∉ rest := fun hr => h (List.mem_cons_of_mem c hr)
    unfold pyExpandtabsGo
    rw [if_neg hc]
    split
    · rw [ih hrest]
    · rw [ih hrest]

/-- Characters of the lines of `splitlines s` come from `s`. -/
theorem mem_of_mem_pySplitlines (s : Str) :
    ∀ l ∈ pySplitlines s, ∀ c ∈ l, c ∈ s := by
  induction s using pySplitlines.induct with
  | case1 =>
    intro l hl
    simp [pySplitlines] at hl
  | case2 c hb =>
    intro l hl c' hc'
    rw [pySplitlines, if_pos hb] at hl
    simp at hl
    subst hl
    simp at hc'
  | case3 c hb =>
    intro l hl c' hc'
    rw [pySplitlines, if_neg hb] at hl
    simp at hl
    subst hl
    simpa using hc'
  | case4 c c2 rest hrn ih =>
    intro l hl c' hc'
    rw [pySplitlines, if_pos hrn] at hl
    rcases List.mem_cons.mp hl with h | h
    · subst h; simp at hc'
    · exact List.mem_cons_of_mem _ (List.mem_cons_of_mem _ (ih l h c' hc'))
  | case5 c c2 rest hrn hb ih =>
    intro l hl c' hc'
    rw [pySplitlines, if_neg hrn, if_pos hb] at hl
    rcases List.mem_cons.mp hl with h | h
    · subst h; simp at hc'
    · exact List.mem_cons_of_mem _ (ih l h c' hc')
  | case6 c c2 rest hrn hb hnil ih =>
    intro l hl c' hc'
    rw [pySplitlines, if_neg hrn, if_neg hb, hnil] at hl
    simp at hl
    subst hl
    simp at hc'
    simp [hc']
  | case7 c c2 rest hrn hb l' ls' hcons ih =>
    intro l hl c' hc'
    rw [pySplitlines, if_neg hrn, if_neg hb, hcons] at hl
    rcases List.mem_cons.mp hl with h | h
    · subst h
      rcases List.mem_cons.mp hc' with h' | h'
      · simp [h']
      · exact List.mem_cons_of_mem _
          (ih l' (hcons ▸ List.mem_cons_self l' ls') c' h')
    · exact List.mem_cons_of_mem _
        (ih l (hcons ▸ List.mem_cons_of_mem l' h) c' hc')

/-- The lines of `splitlines s` contain no line-boundary characters. -/
theorem pySplitlines_no_boundary (s : Str) :
    ∀ l ∈ pySplitlines s, ∀ c ∈ l, isLineBoundary c = false := by
  induction s using pySplitlines.induct with
  | case1 =>
    intro l hl
    simp [pySplitlines] at hl
  | case2 c hb =>
    intro l hl c' hc'
    rw [pySplitlines, if_pos hb] at hl
    simp at hl
    subst hl
    simp at hc'
  | case3 c hb =>
    intro l hl c' hc'
    rw [pySplitlines, if_neg hb] at hl
    simp at hl
    subst hl
    simp at hc'
    subst hc'
    exact Bool.eq_false_iff.mpr hb
  | case4 c c2 rest hrn ih =>
    intro l hl c' hc'
    rw [pySplitlines, if_pos hrn] at hl
    rcases List.mem_cons.mp hl with h | h
    · subst h; simp at hc'
    · exact ih l h c' hc'
  | case5 c c2 rest hrn hb ih =>
    intro l hl c' hc'
    rw [pySplitlines, if_neg hrn, if_pos hb] at hl
    rcases List.mem_cons.mp hl with h | h
    · subst h; simp at hc'
    · exact ih l h c' hc'
  | case6 c c2 rest hrn hb hnil ih =>
    intro l hl c' hc'
    rw [pySplitlines, if_neg hrn, if_neg hb, hnil] at hl
    simp at hl
    subst hl
    simp at hc'
    subst hc'
    exact Bool.eq_false_iff.mpr hb
  | case7 c c2 rest hrn hb l' ls' hcons ih =>
    intro l hl c' hc'
    rw [pySplitlines, if_neg hrn, if_neg hb, hcons] at hl
    rcases List.mem_cons.mp hl with h | h
    · subst h
      rcases List.mem_cons.mp hc' with h' | h'
      · subst h'
        exact Bool.eq_false_iff.mpr hb
      · exact ih l' (hcons ▸ List.mem_cons_self l' ls') c' h'
    · exact ih l (hcons ▸ List.mem_cons_of_mem l' h) c' hc'

/-- `splitlines` of a non-empty boundary-free string is that single line. -/
theorem pySplitlines_single (l : Str) (hne : l ≠ [])
    (h : ∀ c ∈ l, isLineBoundary c = false) : pySplitlines l = [l] := by
  induction l with
  | nil => exact absurd rfl hne
  | cons c rest ih =>
    have hc : isLineBoundary c = false := h c (List.mem_cons_self c rest)
    rcases rest with _ | ⟨c2, rest2⟩
    · rw [pySplitlines, if_neg (by simp [hc])]
    · have hc2 : ∀ x ∈ c2 :: rest2, isLineBoundary x = false :=
        fun x hx => h x (List.mem_cons_of_mem c hx)
      have ih2 : pySplitlines (c2 :: rest2) = [c2 :: rest2] :=
        ih (by simp) hc2
      rw [pySplitlines, if_neg, if_neg (by simp [hc]), ih2]
      rintro ⟨hr, -⟩
      rw [hr] at hc
      simp [isLineBoundary] at hc

/-- Splitting after appending `'\n'` then more text: the boundary-free line
`l` comes off first. -/
theorem pySplitlines_append_newline (l : Str)
    (h : ∀ c ∈ l, isLineBoundary c = false) (t : Str) :
    pySplitlines (l ++ '\n' :: t) = l :: pySplitlines t := by
  induction l with
  | nil =>
    rcases t with _ | ⟨c2, t2⟩
    · rw [List.nil_append]
      rw [show pySplitlines ['\n'] = [[]] from by decide]
      rfl
    · rw [List.nil_append, pySplitlines, if_neg (by rintro ⟨h1, -⟩; cases h1),
        if_pos (by decide)]
  | cons c rest ih =>
    have hc : isLineBoundary c = false := h c (List.mem_cons_self c rest)
    have hrest : ∀ x ∈ rest, isLineBoundary x = false :=
      fun x hx => h x (List.mem_cons_of_mem c hx)
    have ihr := ih hrest
    rcases hshape : rest ++ '\n' :: t with _ | ⟨c2, rest2⟩
    · exact absurd hshape (by simp)
    · rw [List.cons_append, hshape, pySplitlines, if_neg, if_neg (by simp [hc]),
        ← hshape, ihr]
      rintro ⟨hr, -⟩
      rw [hr] at hc
      simp [isLineBoundary] at hc

/-- `'\n'.join` on a singleton. -/
theorem joinLines_single (a : Str) : joinLines [a] = a := by
  simp [joinLines, List.intercalate]

/-- `'\n'.join` peels off the first of two-or-more lines. -/
theorem joinLines_cons_cons (a b : Str) (R : List Str) :
    joinLines (a :: b :: R) = a ++ '\n' :: joinLines (b :: R) := by
  simp [joinLines, List.intercalate, List.intersperse]

/-- `'\n'.join` of lines led by a non-empty line is non-empty. -/
theorem joinLines_ne_nil (a : Str) (R : List Str) (ha : a ≠ []) :
    joinLines (a :: R) ≠ [] := by
  rcases R with _ | ⟨b, R⟩
  · rw [joinLines_single]; exact ha
  · rw [joinLines_cons_cons]
    rcases a with _ | ⟨c, a⟩
    · exact absurd rfl ha
    · simp

/-- Characters of `'\n'.join R` come from the lines of `R` or are `'\n'`. -/
theorem mem_joinLines (R : List Str) (c : Char) (h : c ∈ joinLines R) :
    (∃ l ∈ R, c ∈ l) ∨ c = '\n' := by
  induction R with
  | nil => simp [joinLines, List.intercalate] at h
  | cons a R ih =>
    rcases R with _ | ⟨b, R⟩
    · rw [joinLines_single] at h
      exact Or.inl ⟨a, List.mem_cons_self a [], h⟩
    · rw [joinLines_cons_cons] at h
      rcases List.mem_append.mp h with h | h
      · exact Or.inl ⟨a, List.mem_cons_self a _, h⟩
      · rcases List.mem_cons.mp h with h | h
        · exact Or.inr h
        · rcases ih h with ⟨l, hl, hc⟩ | h
          · exact Or.inl ⟨l, List.mem_cons_of_mem a hl, hc⟩
          · exact Or.inr h

/-- `splitlines` inverts `'\n'.join` on a non-empty list of boundary-free
lines whose last line is non-empty. -/
theorem pySplitlines_joinLines (R : List Str) (hne : R ≠ [])
    (hbf : ∀ l ∈ R, ∀ c ∈ l, isLineBoundary c = false)
    (hlast : ∀ x, R.getLast? = some x → x ≠ []) :
    pySplitlines (joinLines R) = R := by
  induction R with
  | nil => exact absurd rfl hne
  | cons a R ih =>
    rcases R with _ | ⟨b, R⟩
    · rw [joinLines_single]
      exact pySplitlines_single a
        (hlast a (by simp)) (hbf a (List.mem_cons_self a _))
    · rw [joinLines_cons_cons,
        pySplitlines_append_newline a (hbf a (List.mem_cons_self a _)),
        ih (by simp) (fun l hl => hbf l (List.mem_cons_of_mem a hl))
          (fun x hx => hlast x (by rw [List.getLast?_cons_cons]; exact hx))]

/-- Once the running minimum is 0 it stays 0. -/
theorem minIndentGo_some_zero (ls : List Str) :
    minIndentGo (some 0) ls = some 0 := by
  induction ls with
  | nil => rfl
  | cons l ls ih =>
    rw [minIndentGo]
    split
    · exact ih
    · simpa using ih

/-- A non-blank line of zero indentation forces the minimum to 0. -/
theorem minIndentGo_eq_zero (ls : List Str)
    (h : ∃ l ∈ ls, (lstrip l).isEmpty = false ∧ indentOf l = 0) :
    ∀ acc, minIndentGo acc ls = some 0 := by
  induction ls with
  | nil => simp at h
  | cons l ls ih =>
    intro acc
    obtain ⟨w, hw, hwb, hwi⟩ := h
    rw [minIndentGo.eq_def]
    dsimp only
    rcases List.mem_cons.mp hw with hw | hw
    · subst hw
      rw [if_neg (by simp [hwb])]
      rcases acc with _ | n
      · rw [hwi]
        exact minIndentGo_some_zero ls
      · rw [hwi]
        simpa using minIndentGo_some_zero ls
    · split
      · exact ih ⟨w, hw, hwb, hwi⟩ acc
      · rcases acc with _ | n
        · exact ih ⟨w, hw, hwb, hwi⟩ _
        · exact ih ⟨w, hw, hwb, hwi⟩ _

/-- If the loop returns a minimum, it is either the incoming accumulator or
the indentation of some non-blank line of the list. -/
theorem minIndentGo_some_inv (ls : List Str) :
    ∀ acc n, minIndentGo acc ls = some n →
      acc = some n ∨ ∃ l ∈ ls, (lstrip l).isEmpty = false ∧ indentOf l = n := by
  induction ls with
  | nil =>
    intro acc n h
    exact Or.inl h
  | cons l ls ih =>
    intro acc n h
    rw [minIndentGo.eq_def] at h
    dsimp only at h
    split at h
    · rcases ih acc n h with h' | ⟨w, hw, hwb, hwi⟩
      · exact Or.inl h'
      · exact Or.inr ⟨w, List.mem_cons_of_mem l hw, hwb, hwi⟩
    · rename_i hblank
      rcases hacc : acc with _ | m
      · subst hacc
        rcases ih _ n h with h' | ⟨w, hw, hwb, hwi⟩
        · exact Or.inr ⟨l, List.mem_cons_self l ls,
            Bool.eq_false_iff.mpr hblank, Option.some.inj h'⟩
        · exact Or.inr ⟨w, List.mem_cons_of_mem l hw, hwb, hwi⟩
      · subst hacc
        rcases ih _ n h with h' | ⟨w, hw, hwb, hwi⟩
        · have hmin : min m (indentOf l) = n := Option.some.inj h'
          rcases Nat.le_total m (indentOf l) with hle | hle
          · rw [Nat.min_eq_left hle] at hmin
            exact Or.inl (by rw [hmin])
          · rw [Nat.min_eq_right hle] at hmin
            exact Or.inr ⟨l, List.mem_cons_self l ls,
              Bool.eq_false_iff.mpr hblank, hmin⟩
        · exact Or.inr ⟨w, List.mem_cons_of_mem l hw, hwb, hwi⟩

/-- The code's indentation count equals the length of the whitespace run. -/
theorem indentOf_eq_takeWhile (l : Str) :
    indentOf l = (l.takeWhile isPySpace).length := by
  have h := congrArg List.length (List.takeWhile_append_dropWhile isPySpace l)
  rw [List.length_append] at h
  unfold indentOf lstrip
  omega

/-- Dropping exactly the indentation of a line leaves its `lstrip`. -/
theorem drop_indentOf (l : Str) : l.drop (indentOf l) = lstrip l := by
  have h : l = List.takeWhile isPySpace l ++ lstrip l :=
    (List.takeWhile_append_dropWhile isPySpace l).symm
  nth_rewrite 2 [h]
  rw [indentOf_eq_takeWhile, List.drop_left]

/-- Popping trailing empties commutes with a non-empty head. -/
theorem dropTrailingEmpty_cons_ne (a : Str) (l : List Str) (ha : a ≠ []) :
    dropTrailingEmpty (a :: l) = a :: dropTrailingEmpty l := by
  have hae : ¬ (List.isEmpty a = true) := by
    rw [List.isEmpty_eq_true]; exact ha
  unfold dropTrailingEmpty
  rw [List.reverse_cons, List.dropWhile_append]
  split
  · rename_i hemp
    rw [List.isEmpty_eq_true] at hemp
    rw [hemp, List.dropWhile_cons, if_neg hae]
    simp
  · rw [List.reverse_append]
    simp

/-- Popping trailing empties is idempotent. -/
theorem dropTrailingEmpty_idem (l : List Str) :
    dropTrailingEmpty (dropTrailingEmpty l) = dropTrailingEmpty l := by
  unfold dropTrailingEmpty
  rw [List.reverse_reverse, dropWhile_dropWhile]

/-- An element not satisfying the predicate survives `dropWhile`. -/
theorem mem_dropWhile_of_neg {α : Type} (p : α → Bool) (l : List α) (x : α)
    (hx : x ∈ l) (hpx : p x = false) : x ∈ l.dropWhile p := by
  induction l with
  | nil => simp at hx
  | cons a l ih =>
    rw [List.dropWhile_cons]
    split
    · rename_i hpa
      rcases List.mem_cons.mp hx with h | h
      · subst h; rw [hpa] at hpx; cases hpx
      · exact ih h
    · exact hx

/-- A non-empty member survives the trailing-empties pop. -/
theorem mem_dropTrailingEmpty (l : List Str) (x : Str) (hx : x ∈ l)
    (hne : x ≠ []) : x ∈ dropTrailingEmpty l := by
  unfold dropTrailingEmpty
  rw [List.mem_reverse]
  apply mem_dropWhile_of_neg
  · rwa [List.mem_reverse]
  · rcases hb : List.isEmpty x
    · rfl
    · exact absurd (List.isEmpty_eq_true.mp hb) hne

/-- Members of the trailing-empties pop come from the original list. -/
theorem mem_of_mem_dropTrailingEmpty (l : List Str) (x : Str)
    (hx : x ∈ dropTrailingEmpty l) : x ∈ l := by
  unfold dropTrailingEmpty at hx
  rw [List.mem_reverse] at hx
  exact List.mem_reverse.mp (List.Sublist.mem hx (List.dropWhile_sublist _))

/-- After popping trailing empties the last element, if any, is non-empty. -/
theorem getLast?_dropTrailingEmpty (l : List Str) (x : Str)
    (hx : (dropTrailingEmpty l).getLast? = some x) : x ≠ [] := by
  unfold dropTrailingEmpty at hx
  rw [List.getLast?_reverse] at hx
  rcases hd : l.reverse.dropWhile List.isEmpty with _ | ⟨a, t⟩
  · rw [hd] at hx; cases hx
  · rw [hd] at hx
    have hfalse := head_dropWhile_false List.isEmpty l.reverse a t hd
    simp only [List.head?_cons, Option.some.injEq] at hx
    subst hx
    intro hcon
    rw [hcon] at hfalse
    simp at hfalse

/-- A non-empty head is kept by the leading-empties pop. -/
theorem dropLeadingEmpty_cons_ne (a : Str) (l : List Str) (ha : a ≠ []) :
    dropLeadingEmpty (a :: l) = a :: l := by
  unfold dropLeadingEmpty
  rw [List.dropWhile_cons, if_neg]
  rw [List.isEmpty_eq_true]
  exact ha

/-- Unfolding of `doctrim` on a non-empty docstring in terms of its split
lines. -/
theorem doctrim_some_eq (d : Str) (hd : d ≠ []) (l0 : Str) (rest : List Str)
    (h : pySplitlines (pyExpandtabs d) = l0 :: rest) :
    doctrim (some d) =
      joinLines (dropLeadingEmpty (dropTrailingEmpty (pyStrip l0 ::
        (match minIndentGo none rest with
         | none => []
         | some n => rest.map (fun line => rstrip (line.drop n)))))) := by
  unfold doctrim
  dsimp only
  rw [if_neg hd, h]

/-- C5 (amended): `trim` is idempotent on every docstring whose first line is
not wholly whitespace (so that the first line is never popped as a leading
blank line and keeps anchoring the indentation computation), and likewise for
a null docstring and for the empty string, both of which trim to `''`. -/
theorem doctrim_idempotent_of_first_line_nonblank (s : Str)
    (h : pyStrip ((pySplitlines (pyExpandtabs s)).headD []) ≠ []) :
    doctrim (some (doctrim none)) = doctrim none ∧
    doctrim (some (doctrim (some []))) = doctrim (some []) ∧
    doctrim (some (doctrim (some s))) = doctrim (some s) := by
  refine ⟨rfl, by decide, ?_⟩
  have hs : s ≠ [] := by
    rintro rfl
    exact h rfl
  rcases hsplit : pySplitlines (pyExpandtabs s) with _ | ⟨l0, rest⟩
  · rw [hsplit] at h
    exact absurd rfl h
  · rw [hsplit] at h
    have h0 : pyStrip l0 ≠ [] := by simpa using h
    have hl0chars : ∀ c ∈ l0, c ∈ pyExpandtabs s := fun c hc =>
      mem_of_mem_pySplitlines _ l0 (hsplit ▸ List.mem_cons_self _ _) c hc
    have hrestchars : ∀ l ∈ rest, ∀ c ∈ l, c ∈ pyExpandtabs s := fun l hl c hc =>
      mem_of_mem_pySplitlines _ l (hsplit ▸ List.mem_cons_of_mem _ hl) c hc
    have hl0bf : ∀ c ∈ l0, isLineBoundary c = false := fun c hc =>
      pySplitlines_no_boundary _ l0 (hsplit ▸ List.mem_cons_self _ _) c hc
    have hrestbf : ∀ l ∈ rest, ∀ c ∈ l, isLineBoundary c = false := fun l hl c hc =>
      pySplitlines_no_boundary _ l (hsplit ▸ List.mem_cons_of_mem _ hl) c hc
    have hnotab : ∀ c ∈ pyExpandtabs s, c ≠ '\t' := fun c hc hct =>
      pyExpandtabsGo_no_tab s 0 (hct ▸ hc)
    have hE := doctrim_some_eq s hs l0 rest hsplit
    rcases hmin : minIndentGo none rest with _ | n
    · -- no non-blank line after the first: the result is the stripped line 0
      rw [hmin] at hE
      dsimp only at hE
      have hE1 : doctrim (some s) = pyStrip l0 := by
        rw [hE, dropTrailingEmpty_cons_ne _ _ h0,
          show dropTrailingEmpty [] = [] from rfl,
          dropLeadingEmpty_cons_ne _ _ h0, joinLines_single]
      rw [hE1]
      have hnt : '\t' ∉ pyStrip l0 := fun hmem =>
        hnotab _ (hl0chars _ (mem_of_mem_pyStrip hmem)) rfl
      have hexp2 : pyExpandtabs (pyStrip l0) = pyStrip l0 :=
        pyExpandtabsGo_eq_self _ hnt 0
      have hsplit2 : pySplitlines (pyExpandtabs (pyStrip l0)) = [pyStrip l0] := by
        rw [hexp2]
        exact pySplitlines_single _ h0
          (fun c hc => hl0bf c (mem_of_mem_pyStrip hc))
      rw [doctrim_some_eq (pyStrip l0) h0 (pyStrip l0) [] hsplit2]
      show joinLines (dropLeadingEmpty (dropTrailingEmpty
        [pyStrip (pyStrip l0)])) = pyStrip l0
      rw [pyStrip_idem, dropTrailingEmpty_cons_ne _ _ h0,
        show dropTrailingEmpty [] = [] from rfl,
        dropLeadingEmpty_cons_ne _ _ h0, joinLines_single]
    · -- a finite minimum n exists: all later lines are cut by n and rstripped
      rw [hmin] at hE
      dsimp only at hE
      have hach : ∃ l ∈ rest, (lstrip l).isEmpty = false ∧ indentOf l = n := by
        rcases minIndentGo_some_inv rest none n hmin with h' | h'
        · cases h'
        · exact h'
      obtain ⟨a, ha, hab, hai⟩ := hach
      have hla_ne : lstrip a ≠ [] := by
        intro hcon
        rw [hcon] at hab
        simp at hab
      rcases hla : lstrip a with _ | ⟨c0, t0⟩
      · exact absurd hla hla_ne
      have hc0 : isPySpace c0 = false := head_dropWhile_false isPySpace a c0 t0 hla
      have himg_eq : rstrip (a.drop n) = c0 :: rstrip t0 := by
        rw [← hai, drop_indentOf, hla, rstrip_cons_not_space _ _ hc0]
      have himgM : rstrip (a.drop n) ∈
          rest.map (fun line => rstrip (line.drop n)) :=
        List.mem_map.mpr ⟨a, ha, rfl⟩
      have himg_ne : rstrip (a.drop n) ≠ [] := by
        rw [himg_eq]
        simp
      have himgR' : rstrip (a.drop n) ∈
          dropTrailingEmpty (rest.map (fun line => rstrip (line.drop n))) :=
        mem_dropTrailingEmpty _ _ himgM himg_ne
      have hE1 : doctrim (some s) = joinLines (pyStrip l0 ::
          dropTrailingEmpty (rest.map (fun line => rstrip (line.drop n)))) := by
        rw [hE, dropTrailingEmpty_cons_ne _ _ h0, dropLeadingEmpty_cons_ne _ _ h0]
      rw [hE1]
      -- abbreviations for the second pass
      have hR'M : ∀ x ∈ dropTrailingEmpty
          (rest.map (fun line => rstrip (line.drop n))),
          ∃ line ∈ rest, rstrip (line.drop n) = x := by
        intro x hx
        have := mem_of_mem_dropTrailingEmpty _ _ hx
        exact List.mem_map.mp this
      have hlinechars : ∀ x ∈ pyStrip l0 ::
          dropTrailingEmpty (rest.map (fun line => rstrip (line.drop n))),
          ∀ c ∈ x, c ∈ pyExpandtabs s := by
        intro x hx c hc
        rcases List.mem_cons.mp hx with hx | hx
        · exact hl0chars c (mem_of_mem_pyStrip (hx ▸ hc))
        · obtain ⟨line, hline, hlx⟩ := hR'M x hx
          exact hrestchars line hline c
            (mem_of_mem_drop (mem_of_mem_rstrip (hlx ▸ hc)))
      have hlinebf : ∀ x ∈ pyStrip l0 ::
          dropTrailingEmpty (rest.map (fun line => rstrip (line.drop n))),
          ∀ c ∈ x, isLineBoundary c = false := by
        intro x hx c hc
        rcases List.mem_cons.mp hx with hx | hx
        · exact hl0bf c (mem_of_mem_pyStrip (hx ▸ hc))
        · obtain ⟨line, hline, hlx⟩ := hR'M x hx
          exact hrestbf line hline c
            (mem_of_mem_drop (mem_of_mem_rstrip (hlx ▸ hc)))
      have hTnotab : '\t' ∉ joinLines (pyStrip l0 ::
          dropTrailingEmpty (rest.map (fun line => rstrip (line.drop n)))) := by
        intro hmem
        rcases mem_joinLines _ _ hmem with ⟨l, hl, hc⟩ | hnl
        · exact hnotab _ (hlinechars l hl _ hc) rfl
        · cases hnl
      have hTne : joinLines (pyStrip l0 ::
          dropTrailingEmpty (rest.map (fun line => rstrip (line.drop n)))) ≠ [] :=
        joinLines_ne_nil _ _ h0
      have hlast : ∀ x, (pyStrip l0 ::
          dropTrailingEmpty (rest.map (fun line => rstrip (line.drop n)))).getLast? =
            some x → x ≠ [] := by
        intro x hx
        rcases hR' : dropTrailingEmpty
            (rest.map (fun line => rstrip (line.drop n))) with _ | ⟨b, R''⟩
        · rw [hR'] at himgR'
          simp at himgR'
        · rw [hR', List.getLast?_cons_cons] at hx
          exact getLast?_dropTrailingEmpty _ x (by rw [hR']; exact hx)
      have hexp2 : pyExpandtabs (joinLines (pyStrip l0 ::
          dropTrailingEmpty (rest.map (fun line => rstrip (line.drop n))))) =
          joinLines (pyStrip l0 ::
            dropTrailingEmpty (rest.map (fun line => rstrip (line.drop n)))) :=
        pyExpandtabsGo_eq_self _ hTnotab 0
      have hsplit2 : pySplitlines (pyExpandtabs (joinLines (pyStrip l0 ::
          dropTrailingEmpty (rest.map (fun line => rstrip (line.drop n)))))) =
          pyStrip l0 ::
            dropTrailingEmpty (rest.map (fun line => rstrip (line.drop n))) := by
        rw [hexp2]
        exact pySplitlines_joinLines _ (by simp) hlinebf hlast
      rw [doctrim_some_eq _ hTne _ _ hsplit2]
      have hmin2 : minIndentGo none (dropTrailingEmpty
          (rest.map (fun line => rstrip (line.drop n)))) = some 0 := by
        apply minIndentGo_eq_zero
        refine ⟨rstrip (a.drop n), himgR', ?_, ?_⟩
        · rw [himg_eq, lstrip_cons_not_space _ _ hc0]
          simp
        · unfold indentOf
          rw [himg_eq, lstrip_cons_not_space _ _ hc0, Nat.sub_self]
      rw [hmin2]
      dsimp only
      have hmap : (dropTrailingEmpty
            (rest.map (fun line => rstrip (line.drop n)))).map
              (fun line => rstrip (line.drop 0)) =
          dropTrailingEmpty (rest.map (fun line => rstrip (line.drop n))) := by
        rw [show (fun line => rstrip (List.drop 0 line)) =
            (fun line : Str => rstrip line) from by
          funext x
          rw [List.drop_zero]]
        rw [List.map_congr_left, List.map_id]
        intro x hx
        obtain ⟨line, hline, hlx⟩ := hR'M x hx
        show rstrip x = id x
        rw [← hlx, rstrip_idem]
        rfl
      rw [hmap, pyStrip_idem, dropTrailingEmpty_cons_ne _ _ h0,
        dropTrailingEmpty_idem, dropLeadingEmpty_cons_ne _ _ h0]

/-- C5 counterexample: `trim` is NOT idempotent for every text.  For
`"\n  a\n   b"` the first pass pops the leading blank line, so `"a"` (from an
indented line) becomes the new first line; the second pass then finds a
smaller minimum indentation over the remaining lines and strips `" b"` down
to `"b"`: `trim(trim(s)) = "a\nb" ≠ "a\n b" = trim(s)`. -/
theorem doctrim_not_idempotent :
    doctrim (some (doctrim (some "\n  a\n   b".data))) ≠
      doctrim (some "\n  a\n   b".data) := by
  decide

/-- Witness for the amended C5 at `"a\n  b"`, whose first line `"a"` is not
wholly whitespace, together with the null and empty-string cases. -/
theorem doctrim_idempotent_witness :
    pyStrip ((pySplitlines (pyExpandtabs "a\n  b".data)).headD []) ≠ [] ∧
    (doctrim (some (doctrim none)) = doctrim none ∧
     doctrim (some (doctrim (some []))) = doctrim (some []) ∧
     doctrim (some (doctrim (some "a\n  b".data))) = doctrim (some "a\n  b".data)) :=
  ⟨by decide, doctrim_idempotent_of_first_line_nonblank "a\n  b".data (by decide)⟩
